import Mathlib

/-!
Shallow embedding of the `cfu` CSV library (`src/cfu/cfu.py`) together with
proofs about its operations.

Modelling conventions:

* A Python `dict` row (as produced by `csv.DictReader`) is an insertion-ordered
  association list from column name to text value; the first binding of a key
  is the live one, and the operations below maintain key uniqueness exactly as
  `dict` does (assignment updates in place, otherwise appends at the end).
* The backing file is modelled at two levels: structurally as a `CsvFile`
  (header line plus the cell rows of the data lines), and — for the round-trip
  property — at the byte level via an explicit serializer/parser pair for the
  `csv` module's default dialect.
* A missing file is `none : Option CsvFile`.
* Python exceptions (`FileNotFoundError`, `KeyError`) become the `PyError`
  error component of `Except`.  Operations that mutate state return the new
  state; an `Except.error` result models an exception raised before the
  corresponding assignments/writes happened.
* `str`/`float` arguments are taken as `String`; `float()` is modelled on the
  decimal-literal fragment (optional sign, digits, optional single point) with
  exact rational values.
-/

namespace Cfu

/-- A row record: a Python dict from column name to cell text, as an ordered
association list. -/
abbrev Row := List (String × String)

/-- Dictionary lookup `row[k]` (as an `Option`; `none` models `KeyError`). -/
def Row.getVal : Row → String → Option String
  | [], _ => none
  | (k, v) :: r, key => if k = key then some v else Row.getVal r key

/-- Dictionary assignment `row[k] = v`: update the existing binding in place,
otherwise append a new binding at the end (Python dict insertion order). -/
def Row.setVal : Row → String → String → Row
  | [], key, v => [(key, v)]
  | (k, w) :: r, key, v =>
    if k = key then (k, v) :: r else (k, w) :: Row.setVal r key v

/-- Dictionary removal `row.pop(k, None)` (drops the binding if present). -/
def Row.eraseKey : Row → String → Row
  | [], _ => []
  | (k, w) :: r, key => if k = key then r else (k, w) :: Row.eraseKey r key

/-- The dict's key view (`k in row` tests membership of this list). -/
def Row.keys (r : Row) : List String := r.map Prod.fst

/-- Membership test `key in row`. -/
def Row.hasKey (r : Row) (key : String) : Bool := (Row.getVal r key).isSome

/-- Structural view of an on-disk CSV file: the header line (`fieldnames`)
and one list of cells per data line. -/
structure CsvFile where
  header : List String
  records : List (List String)
deriving DecidableEq, Repr

/-- One `csv.DictReader` data row: `dict(zip(fieldnames, cells))`.
The modelled domain is files whose data lines match the header (the theorems
assume this where it matters); `DictReader`'s `restkey`/`restval = None`
padding for ragged lines lies outside the text-valued row type. -/
def zipRow (header cells : List String) : Row := header.zip cells

/-- The rows produced by `csv.DictReader` on a file: one dict per data line,
blank lines (empty cell lists) skipped. -/
def loadRows (f : CsvFile) : List Row :=
  (f.records.filter (fun cs => !cs.isEmpty)).map (zipRow f.header)

/-- `BasicCsv._load_csv` (src/cfu/cfu.py:46-66): returns the updated
`self.fields` (overridden by the file's header when that is non-empty) and
the loaded data.  A missing file yields the caller's fields and no rows, with
no error. -/
def load_csv (fields : List String) (disk : Option CsvFile) :
    List String × List Row :=
  match disk with
  | none => (fields, [])
  | some f => (if f.header.isEmpty then fields else f.header, loadRows f)

/-- `BasicCsv.save_csv` (src/cfu/cfu.py:68-87) at the structural level:
`csv.DictWriter` writes the header and, for each row, the row's values in
field order (`restval = ''` for a key the row lacks). -/
def writeCsv (fields : List String) (data : List Row) : CsvFile :=
  ⟨fields, data.map (fun r => fields.map (fun f => (Row.getVal r f).getD ""))⟩

/-- Python exceptions surfaced by the library. -/
inductive PyError where
  | fileNotFound
  | keyError
deriving DecidableEq, Repr

/-- The three-way result of `BasicCsv.search_column`: Python `False`
(unrecognized column), Python `None` (no matching row), or the first matching
row dict. -/
inductive SearchResult where
  | invalidColumn
  | notFound
  | found (r : Row)
deriving DecidableEq, Repr

/-- The scan loop of `search_column`: first row whose `col` value equals
`value`, in row order; `row[col_name]` on a row lacking the column raises
`KeyError`. -/
def searchLoop (col value : String) : List Row → Except PyError SearchResult
  | [] => .ok .notFound
  | r :: rs =>
    match Row.getVal r col with
    | none => .error .keyError
    | some v => if v = value then .ok (.found r) else searchLoop col value rs

/-- `BasicCsv.search_column` (src/cfu/cfu.py:124-143). -/
def search_column (fields : List String) (data : List Row) (col value : String) :
    Except PyError SearchResult :=
  if col ∈ fields then searchLoop col value data else .ok .invalidColumn

/-- Numeric value of a digit string (most significant first). -/
def digitsVal (ds : List Char) : ℕ :=
  ds.foldl (fun a c => 10 * a + (c.toNat - 48)) 0

/-- Python `float()` on the decimal-literal fragment: an optional sign
followed by digits with at most one decimal point and at least one digit,
valued exactly as a rational.  Exponents, `inf`/`nan`, underscores,
surrounding whitespace, and IEEE rounding lie outside the modelled fragment
(the library only routes on parse success/failure and on the order of the
parsed values). -/
def pyFloat? (s : String) : Option ℚ :=
  let cs := s.data
  let signed := match cs with
    | '-' :: rest => (true, rest)
    | '+' :: rest => (false, rest)
    | _ => (false, cs)
  let body := signed.2
  let intPart := body.takeWhile Char.isDigit
  let rest := body.dropWhile Char.isDigit
  let mag : Option ℚ :=
    match rest with
    | [] => if intPart.isEmpty then none else some (digitsVal intPart : ℚ)
    | '.' :: frac =>
      if frac.all Char.isDigit && !(intPart.isEmpty && frac.isEmpty) then
        some ((digitsVal intPart : ℚ) + (digitsVal frac : ℚ) / (10 : ℚ) ^ frac.length)
      else none
    | _ => none
  mag.map (fun q => if signed.1 then -q else q)

/-- The raw sort key `x[key]` used by `sort_by`'s lambdas (`""` is a mere
placeholder: `sort_by` only sorts once every row is known to have the key). -/
def strKey (key : String) (r : Row) : String := (Row.getVal r key).getD ""

/-- The numeric sort key `float(x[key])` (same placeholder remark). -/
def numKey (key : String) (r : Row) : ℚ := ((Row.getVal r key).bind pyFloat?).getD 0

/-- Ascending numeric comparison between rows. -/
def ascNum (key : String) (a b : Row) : Prop := numKey key a ≤ numKey key b

/-- Descending numeric comparison between rows (`reverse=True`). -/
def descNum (key : String) (a b : Row) : Prop := numKey key b ≤ numKey key a

/-- Ascending lexicographic comparison on the raw text values. -/
def ascStr (key : String) (a b : Row) : Prop := strKey key a ≤ strKey key b

/-- Descending lexicographic comparison on the raw text values. -/
def descStr (key : String) (a b : Row) : Prop := strKey key b ≤ strKey key a

instance (key : String) : DecidableRel (ascNum key) :=
  fun a b => inferInstanceAs (Decidable (numKey key a ≤ numKey key b))

instance (key : String) : DecidableRel (descNum key) :=
  fun a b => inferInstanceAs (Decidable (numKey key b ≤ numKey key a))

instance (key : String) : DecidableRel (ascStr key) :=
  fun a b => inferInstanceAs (Decidable (strKey key a ≤ strKey key b))

instance (key : String) : DecidableRel (descStr key) :=
  fun a b => inferInstanceAs (Decidable (strKey key b ≤ strKey key a))

/-- Python's `sorted(data, key=..., reverse=...)` is the unique stable sort
for the induced total preorder; `List.insertionSort` with the corresponding
relation (flipped for `reverse=True`, which keeps ties in original order) is
exactly that stable sort. -/
def pySortedNum (key : String) (rev : Bool) (data : List Row) : List Row :=
  if rev then List.insertionSort (descNum key) data
  else List.insertionSort (ascNum key) data

/-- Stable sort on the raw text values (the `except ValueError` branch). -/
def pySortedStr (key : String) (rev : Bool) (data : List Row) : List Row :=
  if rev then List.insertionSort (descStr key) data
  else List.insertionSort (ascStr key) data

/-- `BasicCsv.sort_by` (src/cfu/cfu.py:145-178).  Control flow of the source:
missing file raises `FileNotFoundError`; an empty load returns `[]` before
any key check; `key not in data[0]` raises `KeyError`; otherwise
`sorted(key=lambda x: float(x[key]))` is tried and `ValueError` (some value
fails to parse) falls back to `sorted(key=lambda x: x[key])`.  A row beyond
the first lacking the key raises `KeyError` from the lambda of whichever
branch is active, so the observable outcome is `KeyError` exactly when some
row lacks the key; the two nested guards below reproduce that.  (The
`self.fields` refresh done by the inner `_load_csv` call touches no state
that `sort_by`'s result depends on and is not modelled.) -/
def sort_by (disk : Option CsvFile) (key : String) (rev : Bool) :
    Except PyError (List Row) :=
  match disk with
  | none => .error .fileNotFound
  | some f =>
    match loadRows f with
    | [] => .ok []
    | r0 :: rest =>
      if Row.hasKey r0 key then
        if (r0 :: rest).all (fun r => Row.hasKey r key) then
          if (r0 :: rest).all (fun r => (pyFloat? (strKey key r)).isSome) then
            .ok (pySortedNum key rev (r0 :: rest))
          else
            .ok (pySortedStr key rev (r0 :: rest))
        else .error .keyError
      else .error .keyError

/-- The list comprehension of `del_data`: keep the rows whose `key` value
differs from the (string form of the) value to delete; a row lacking `key`
raises `KeyError` at the point it is reached, before anything is saved. -/
def filterNeLoop (key v : String) : List Row → Except PyError (List Row)
  | [] => .ok []
  | r :: rs =>
    match Row.getVal r key with
    | none => .error .keyError
    | some x =>
      match filterNeLoop key v rs with
      | .error e => .error e
      | .ok rest => .ok (if x = v then rest else r :: rest)

/-- `BasicCsv.del_data` (src/cfu/cfu.py:180-205): requires the file to exist,
reloads it, filters, saves the filtered rows (with `self.fields`, refreshed
to the file's header by `_load_csv`) and assigns them to `self.data`.
Returns (new `self.fields`, new `self.data`, file written). -/
def del_data (fields : List String) (disk : Option CsvFile) (del_value key : String) :
    Except PyError (List String × List Row × CsvFile) :=
  match disk with
  | none => .error .fileNotFound
  | some f =>
    let fields' := if f.header.isEmpty then fields else f.header
    match filterNeLoop key del_value (loadRows f) with
    | .error e => .error e
    | .ok filtered => .ok (fields', filtered, writeCsv fields' filtered)

/-- The update loop of `update_value`: rewrite `old` to `new` in `column`
across all rows; a row lacking `column` raises `KeyError`. -/
def updateLoop (column old new : String) : List Row → Except PyError (List Row)
  | [] => .ok []
  | r :: rs =>
    match Row.getVal r column with
    | none => .error .keyError
    | some x =>
      match updateLoop column old new rs with
      | .error e => .error e
      | .ok rest =>
        .ok ((if x = old then Row.setVal r column new else r) :: rest)

/-- `BasicCsv.update_value` (src/cfu/cfu.py:207-236): requires the file to
exist, reloads it, rewrites matching cells, and always saves — also with zero
matches.  (The source saves the locally reloaded rows and leaves `self.data`
stale; the returned rows are the ones saved.)  Returns (new `self.fields`,
saved rows, file written). -/
def update_value (fields : List String) (disk : Option CsvFile)
    (column old new : String) :
    Except PyError (List String × List Row × CsvFile) :=
  match disk with
  | none => .error .fileNotFound
  | some f =>
    let fields' := if f.header.isEmpty then fields else f.header
    match updateLoop column old new (loadRows f) with
    | .error e => .error e
    | .ok data' => .ok (fields', data', writeCsv fields' data')

/-- The scan loop of `ColMan.value_update`: rows whose `row_identifier` value
equals `target_name` get `target_column` set to `new_value`; the flag records
whether any row matched.  A row lacking `row_identifier` raises `KeyError`. -/
def vuLoop (target_name target_column new_value idCol : String) :
    List Row → Except PyError (List Row × Bool)
  | [] => .ok ([], false)
  | r :: rs =>
    match Row.getVal r idCol with
    | none => .error .keyError
    | some x =>
      match vuLoop target_name target_column new_value idCol rs with
      | .error e => .error e
      | .ok (rest, urest) =>
        if x = target_name then
          .ok (Row.setVal r target_column new_value :: rest, true)
        else .ok (r :: rest, urest)

/-- `ColMan.value_update` (src/cfu/cfu.py:298-326): soft failure (`False`,
nothing touched) when `target_column` is not a field; otherwise updates the
matching in-memory rows and saves if and only if at least one row matched.
Returns (returned flag, new `self.data`, resulting disk state). -/
def value_update (fields : List String) (data : List Row) (disk : Option CsvFile)
    (target_name target_column new_value row_identifier : String) :
    Except PyError (Bool × List Row × Option CsvFile) :=
  if target_column ∈ fields then
    match vuLoop target_name target_column new_value row_identifier data with
    | .error e => .error e
    | .ok (data', updated) =>
      .ok (updated, data', if updated then some (writeCsv fields data') else disk)
  else .ok (false, data, disk)

/-- `ColMan.add_column` (src/cfu/cfu.py:252-271): append the name to the
fields when new, set the default value in every row, save.  (The Python
default value `None` lies outside the text-valued cell domain; the value is
taken as text.)  Returns (new fields, new data, file written). -/
def add_column (fields : List String) (data : List Row) (col value : String) :
    List String × List Row × CsvFile :=
  let fields' := if col ∈ fields then fields else fields ++ [col]
  let data' := data.map (fun r => Row.setVal r col value)
  (fields', data', writeCsv fields' data')

/-- Python `list.insert(i, x)`: a non-negative index beyond the length means
append at the end; a negative index counts from the end, clamped to the
front. -/
def pyInsert (l : List String) (i : Int) (x : String) : List String :=
  let n : Int := l.length
  let j : Int := if i < 0 then max 0 (n + i) else min i n
  l.insertIdx j.toNat x

/-- `ColMan.add_column_position` (src/cfu/cfu.py:273-296): when the name is
new, back-fill every row with the default value; remove the name from the
fields if present; insert it at the given position; save.
Returns (new fields, new data, file written). -/
def add_column_position (fields : List String) (data : List Row)
    (col : String) (position : Int) (value : String) :
    List String × List Row × CsvFile :=
  let data' := if col ∈ fields then data else data.map (fun r => Row.setVal r col value)
  let fields1 := if col ∈ fields then fields.erase col else fields
  let fields' := pyInsert fields1 position col
  (fields', data', writeCsv fields' data')

/-- `ColMan.rm_column` (src/cfu/cfu.py:328-347): soft failure when the name
is not a field; otherwise `row.pop(col_name, None)` on every row, remove the
field, save.  Returns (flag, fields, data, disk). -/
def rm_column (fields : List String) (data : List Row) (disk : Option CsvFile)
    (col : String) :
    Bool × List String × List Row × Option CsvFile :=
  if col ∈ fields then
    let data' := data.map (fun r => Row.eraseKey r col)
    let fields' := fields.erase col
    (true, fields', data', some (writeCsv fields' data'))
  else (false, fields, data, disk)

/-- The row rewrite of `rename_column`: `row[new_name] = row.pop(old_name)` —
`pop` without a default raises `KeyError` on a row lacking `old_name`,
otherwise the old binding is removed and the value is assigned under the new
name (in place when `new_name` already occurs in the row, else at the end). -/
def renameLoop (old new : String) : List Row → Except PyError (List Row)
  | [] => .ok []
  | r :: rs =>
    match Row.getVal r old with
    | none => .error .keyError
    | some v =>
      match renameLoop old new rs with
      | .error e => .error e
      | .ok rest => .ok (Row.setVal (Row.eraseKey r old) new v :: rest)

/-- `ColMan.rename_column` (src/cfu/cfu.py:349-370): soft failure when
`old` is not a field; otherwise rewrite every row, replace `old` by `new` at
its index in the fields, save.  Returns (flag, fields, data, disk). -/
def rename_column (fields : List String) (data : List Row) (disk : Option CsvFile)
    (old new : String) :
    Except PyError (Bool × List String × List Row × Option CsvFile) :=
  if old ∈ fields then
    match renameLoop old new data with
    | .error e => .error e
    | .ok data' =>
      let fields' := fields.set (fields.indexOf old) new
      .ok (true, fields', data', some (writeCsv fields' data'))
  else .ok (false, fields, data, disk)

/-! Basic facts about rows. -/

theorem Row.getVal_mem {r : Row} {k v : String} (h : Row.getVal r k = some v) :
    (k, v) ∈ r := by
  induction r with
  | nil => simp [Row.getVal] at h
  | cons p r ih =>
    obtain ⟨a, b⟩ := p
    by_cases hk : a = k
    · subst hk
      simp [Row.getVal] at h
      simp [h]
    · simp [Row.getVal, hk] at h
      exact List.mem_cons_of_mem _ (ih h)

theorem Row.getVal_none_of_keys {r : Row} {fields : List String} {k : String}
    (hkeys : ∀ p ∈ r, p.1 ∈ fields) (hk : k ∉ fields) : Row.getVal r k = none := by
  induction r with
  | nil => rfl
  | cons p r ih =>
    obtain ⟨a, b⟩ := p
    have ha : a ∈ fields := hkeys (a, b) (List.mem_cons_self _ _)
    have hak : ¬ a = k := fun h => hk (h ▸ ha)
    simp only [Row.getVal, hak, if_false]
    exact ih (fun p hp => hkeys p (List.mem_cons_of_mem _ hp))

theorem Row.getVal_setVal_self (r : Row) (k v : String) :
    Row.getVal (Row.setVal r k v) k = some v := by
  induction r with
  | nil => simp [Row.setVal, Row.getVal]
  | cons p r ih =>
    obtain ⟨a, b⟩ := p
    by_cases hk : a = k
    · simp [Row.setVal, Row.getVal, hk]
    · simp [Row.setVal, Row.getVal, hk, ih]

theorem Row.getVal_setVal_ne (r : Row) {k k' : String} (v : String) (h : k' ≠ k) :
    Row.getVal (Row.setVal r k v) k' = Row.getVal r k' := by
  induction r with
  | nil =>
    have hne : ¬ k = k' := fun hh => h hh.symm
    simp [Row.setVal, Row.getVal, hne]
  | cons p r ih =>
    obtain ⟨a, b⟩ := p
    by_cases hk : a = k
    · subst hk
      have hne : ¬ a = k' := fun hh => h hh.symm
      simp [Row.setVal, Row.getVal, hne]
    · simp [Row.setVal, Row.getVal, hk, ih]

theorem Row.getVal_isSome_setVal (r : Row) {k' : String} (k v : String)
    (h : (Row.getVal r k').isSome) : (Row.getVal (Row.setVal r k v) k').isSome := by
  by_cases hk : k' = k
  · subst hk
    simp [Row.getVal_setVal_self]
  · rwa [Row.getVal_setVal_ne r v hk]

/-! ### C2: the three-way outcome of `search_column` -/

theorem searchLoop_notFound (col value : String) (data : List Row)
    (hk : ∀ r ∈ data, (Row.getVal r col).isSome)
    (h : ∀ r ∈ data, Row.getVal r col ≠ some value) :
    searchLoop col value data = .ok .notFound := by
  induction data with
  | nil => rfl
  | cons r rs ih =>
    obtain ⟨v, hv⟩ := Option.isSome_iff_exists.1 (hk r (List.mem_cons_self _ _))
    have hne : ¬ v = value := by
      intro hh
      exact h r (List.mem_cons_self _ _) (hh ▸ hv)
    simp only [searchLoop, hv, hne, if_false]
    exact ih (fun r hr => hk r (List.mem_cons_of_mem _ hr))
      (fun r hr => h r (List.mem_cons_of_mem _ hr))

theorem searchLoop_found (col value : String) (data : List Row)
    (hk : ∀ r ∈ data, (Row.getVal r col).isSome)
    (hex : ∃ r ∈ data, Row.getVal r col = some value) :
    ∃ pre r post, data = pre ++ r :: post ∧ Row.getVal r col = some value ∧
      (∀ r' ∈ pre, Row.getVal r' col ≠ some value) ∧
      searchLoop col value data = .ok (.found r) := by
  induction data with
  | nil => simp at hex
  | cons r rs ih =>
    obtain ⟨v, hv⟩ := Option.isSome_iff_exists.1 (hk r (List.mem_cons_self _ _))
    by_cases hveq : v = value
    · subst hveq
      exact ⟨[], r, rs, rfl, hv, by simp, by simp [searchLoop, hv]⟩
    · have hex' : ∃ r' ∈ rs, Row.getVal r' col = some value := by
        obtain ⟨r', hr', hval⟩ := hex
        rcases List.mem_cons.1 hr' with h1 | h1
        · exact absurd (h1 ▸ hval) (by rw [hv]; simp [hveq])
        · exact ⟨r', h1, hval⟩
      obtain ⟨pre, r0, post, hsplit, hval, hpre, hloop⟩ :=
        ih (fun r hr => hk r (List.mem_cons_of_mem _ hr)) hex'
      refine ⟨r :: pre, r0, post, by simp [hsplit], hval, ?_, ?_⟩
      · intro r' hr'
        rcases List.mem_cons.1 hr' with h1 | h1
        · subst h1
          rw [hv]
          simp [hveq]
        · exact hpre r' h1
      · simp [searchLoop, hv, hveq, hloop]

/-- C2: on any in-memory table state (whose rows carry the searched column
when it is a field), `search_column` has a three-way outcome: Python `False`
when the column is not a field; the first matching row in row order when one
exists; Python `None` when the column is valid but no row matches — and the
three outcomes are pairwise distinct values. -/
theorem C2_search_column_three_way (fields : List String) (data : List Row)
    (col value : String)
    (hwf : ∀ r ∈ data, col ∈ fields → (Row.getVal r col).isSome) :
    (col ∉ fields → search_column fields data col value = .ok .invalidColumn) ∧
    (col ∈ fields → (∀ r ∈ data, Row.getVal r col ≠ some value) →
      search_column fields data col value = .ok .notFound) ∧
    (col ∈ fields → (∃ r ∈ data, Row.getVal r col = some value) →
      ∃ pre r post, data = pre ++ r :: post ∧ Row.getVal r col = some value ∧
        (∀ r' ∈ pre, Row.getVal r' col ≠ some value) ∧
        search_column fields data col value = .ok (.found r)) ∧
    (∀ r : Row, SearchResult.invalidColumn ≠ SearchResult.notFound ∧
      SearchResult.invalidColumn ≠ SearchResult.found r ∧
      SearchResult.notFound ≠ SearchResult.found r) := by
  refine ⟨fun h => by simp [search_column, h], fun h hnone => ?_, fun h hex => ?_, by simp⟩
  · simp only [search_column, h, if_true]
    exact searchLoop_notFound col value data (fun r hr => hwf r hr h) hnone
  · obtain ⟨pre, r, post, hsplit, hval, hpre, hloop⟩ :=
      searchLoop_found col value data (fun r hr => hwf r hr h) hex
    exact ⟨pre, r, post, hsplit, hval, hpre, by simp [search_column, h, hloop]⟩

/-- Witness for C2 at a concrete table. -/
theorem C2_search_column_three_way_witness :
    (∀ r ∈ [[("id", "1"), ("name", "A")], [("id", "2"), ("name", "B")]],
      "name" ∈ ["id", "name"] → (Row.getVal r "name").isSome) ∧
    (("name" : String) ∉ ["id", "name"] →
      search_column ["id", "name"] [[("id", "1"), ("name", "A")], [("id", "2"), ("name", "B")]]
        "name" "B" = .ok .invalidColumn) ∧
    (("name" : String) ∈ ["id", "name"] →
      (∀ r ∈ [[("id", "1"), ("name", "A")], [("id", "2"), ("name", "B")]],
        Row.getVal r "name" ≠ some "B") →
      search_column ["id", "name"] [[("id", "1"), ("name", "A")], [("id", "2"), ("name", "B")]]
        "name" "B" = .ok .notFound) ∧
    (("name" : String) ∈ ["id", "name"] →
      (∃ r ∈ [[("id", "1"), ("name", "A")], [("id", "2"), ("name", "B")]],
        Row.getVal r "name" = some "B") →
      ∃ pre r post,
        [[("id", "1"), ("name", "A")], [("id", "2"), ("name", "B")]] = pre ++ r :: post ∧
        Row.getVal r "name" = some "B" ∧
        (∀ r' ∈ pre, Row.getVal r' "name" ≠ some "B") ∧
        search_column ["id", "name"] [[("id", "1"), ("name", "A")], [("id", "2"), ("name", "B")]]
          "name" "B" = .ok (.found r)) ∧
    (∀ r : Row, SearchResult.invalidColumn ≠ SearchResult.notFound ∧
      SearchResult.invalidColumn ≠ SearchResult.found r ∧
      SearchResult.notFound ≠ SearchResult.found r) := by
  refine ⟨by decide, ?_⟩
  exact C2_search_column_three_way ["id", "name"]
    [[("id", "1"), ("name", "A")], [("id", "2"), ("name", "B")]] "name" "B" (by decide)

/-! ### C3: `value_update` soft failure and conditional persistence -/

theorem vuLoop_ok (tn tc nv idc : String) (data : List Row)
    (hwf : ∀ r ∈ data, (Row.getVal r idc).isSome) :
    vuLoop tn tc nv idc data =
      .ok (data.map (fun r => if Row.getVal r idc = some tn then Row.setVal r tc nv else r),
           data.any (fun r => Row.getVal r idc == some tn)) := by
  induction data with
  | nil => rfl
  | cons r rs ih =>
    obtain ⟨v, hv⟩ := Option.isSome_iff_exists.1 (hwf r (List.mem_cons_self _ _))
    have ih' := ih (fun r hr => hwf r (List.mem_cons_of_mem _ hr))
    by_cases hveq : v = tn
    · subst hveq
      simp [vuLoop, hv, ih']
    · simp only [vuLoop, hv, ih', List.map_cons, List.any_cons]
      simp [hveq, Option.some_inj, hv]

/-- C3: on any in-memory table state whose rows carry the identifier column,
`value_update` fails softly (returns `False`, touching no row and writing no
file) when the target column is not a field; otherwise it sets the target
column to the new value in exactly the rows whose identifier-column value
equals the match value, returns `True` exactly when at least one row matched,
and writes the file exactly when at least one row matched. -/
theorem C3_value_update_conditional (fields : List String) (data : List Row)
    (disk : Option CsvFile) (tn tc nv idc : String)
    (hwf : ∀ r ∈ data, (Row.getVal r idc).isSome) :
    (tc ∉ fields → value_update fields data disk tn tc nv idc = .ok (false, data, disk)) ∧
    (tc ∈ fields →
      ∃ updated data',
        value_update fields data disk tn tc nv idc =
          .ok (updated, data', if updated then some (writeCsv fields data') else disk) ∧
        data' = data.map
          (fun r => if Row.getVal r idc = some tn then Row.setVal r tc nv else r) ∧
        (updated = true ↔ ∃ r ∈ data, Row.getVal r idc = some tn)) := by
  constructor
  · intro h
    simp [value_update, h]
  · intro h
    refine ⟨data.any (fun r => Row.getVal r idc == some tn),
      data.map (fun r => if Row.getVal r idc = some tn then Row.setVal r tc nv else r),
      ?_, rfl, ?_⟩
    · simp [value_update, h, vuLoop_ok tn tc nv idc data hwf]
    · simp [List.any_eq_true]

/-- Witness for C3 at a concrete table (one matching row). -/
theorem C3_value_update_conditional_witness :
    (∀ r ∈ [[("name", "Elon"), ("score", "85")], [("name", "Tom"), ("score", "90")]],
      (Row.getVal r "name").isSome) ∧
    ((("score" : String) ∉ ["name", "score"] →
      value_update ["name", "score"]
        [[("name", "Elon"), ("score", "85")], [("name", "Tom"), ("score", "90")]]
        none "Elon" "score" "100" "name" =
        .ok (false, [[("name", "Elon"), ("score", "85")], [("name", "Tom"), ("score", "90")]],
          none)) ∧
    (("score" : String) ∈ ["name", "score"] →
      ∃ updated data',
        value_update ["name", "score"]
          [[("name", "Elon"), ("score", "85")], [("name", "Tom"), ("score", "90")]]
          none "Elon" "score" "100" "name" =
          .ok (updated, data',
            if updated then some (writeCsv ["name", "score"] data') else none) ∧
        data' = [[("name", "Elon"), ("score", "85")], [("name", "Tom"), ("score", "90")]].map
          (fun r => if Row.getVal r "name" = some "Elon"
            then Row.setVal r "score" "100" else r) ∧
        (updated = true ↔
          ∃ r ∈ [[("name", "Elon"), ("score", "85")], [("name", "Tom"), ("score", "90")]],
            Row.getVal r "name" = some "Elon"))) := by
  refine ⟨by decide, ?_⟩
  exact C3_value_update_conditional ["name", "score"]
    [[("name", "Elon"), ("score", "85")], [("name", "Tom"), ("score", "90")]]
    none "Elon" "score" "100" "name" (by decide)

/-! ### C6: missing-file asymmetry -/

/-- C6: a missing file is forgiven by construction/load (empty rows, the
caller's default columns, no error — `load_csv` is a total function), while
`sort_by`, `del_data` and `update_value` on a missing file all raise
`FileNotFoundError`. -/
theorem C6_missing_file_asymmetry (defaults flds : List String)
    (key v col old new : String) (rev : Bool) :
    load_csv defaults none = (defaults, []) ∧
    sort_by none key rev = .error .fileNotFound ∧
    del_data flds none v key = .error .fileNotFound ∧
    update_value flds none col old new = .error .fileNotFound :=
  ⟨rfl, rfl, rfl, rfl⟩

/-! ### C9: hard `KeyError` on unrecognized key for `del_data`/`update_value` -/

/-- C9: on an existing file whose loaded data is non-empty, `del_data` and
`update_value` with a key/column that none of the loaded rows carries raise
`KeyError` — an `Except.error` result, produced before any save: no file is
written and no in-memory assignment happens, and there is no soft `False`
flag as in `search_column`. -/
theorem C9_bad_key_hard_error (fields : List String) (f : CsvFile)
    (v key col old new : String)
    (hne : loadRows f ≠ [])
    (hkey : ∀ r ∈ loadRows f, Row.getVal r key = none)
    (hcol : ∀ r ∈ loadRows f, Row.getVal r col = none) :
    del_data fields (some f) v key = .error .keyError ∧
    update_value fields (some f) col old new = .error .keyError := by
  obtain ⟨r0, rest, hdata⟩ := List.exists_cons_of_ne_nil hne
  have h1 : Row.getVal r0 key = none := hkey r0 (hdata ▸ List.mem_cons_self _ _)
  have h2 : Row.getVal r0 col = none := hcol r0 (hdata ▸ List.mem_cons_self _ _)
  constructor
  · simp [del_data, hdata, filterNeLoop, h1]
  · simp [update_value, hdata, updateLoop, h2]

/-- Witness for C9 at a concrete file lacking the column `"city"`. -/
theorem C9_bad_key_hard_error_witness :
    (loadRows ⟨["id", "name"], [["1", "A"]]⟩ ≠ []) ∧
    (∀ r ∈ loadRows ⟨["id", "name"], [["1", "A"]]⟩, Row.getVal r "city" = none) ∧
    del_data ["id", "name"] (some ⟨["id", "name"], [["1", "A"]]⟩) "A" "city" =
      .error .keyError ∧
    update_value ["id", "name"] (some ⟨["id", "name"], [["1", "A"]]⟩) "city" "x" "y" =
      .error .keyError := by
  refine ⟨by decide, by decide, ?_⟩
  exact C9_bad_key_hard_error ["id", "name"] ⟨["id", "name"], [["1", "A"]]⟩
    "A" "city" "city" "x" "y" (by decide) (by decide) (by decide)

/-! ### C5: bad sort key versus zero-row file -/

/-- C5 counterexample: on a file that exists but has zero data rows, `sort_by`
returns the empty sequence before any key check, so an unrecognized sort key
does yield an empty result there — refuting "an unrecognized key never yields
an empty result, regardless of how many rows the file holds". -/
theorem C5_zero_row_bad_key_counterexample :
    sort_by (some ⟨["id"], []⟩) "nope" false = .ok [] ∧
    ("nope" : String) ∉ (⟨["id"], []⟩ : CsvFile).header := by
  exact ⟨rfl, by decide⟩

/-- C5 (amended): when the loaded data is non-empty, a sort key absent from
the first loaded row's columns is a hard `KeyError`, never an `.ok` result —
so the bad-key failure is distinguishable from the zero-row case, which
returns `.ok []`.  With zero rows the key is never checked and every key
yields `.ok []`. -/
theorem C5_bad_key_vs_empty (f : CsvFile) (key : String) (rev : Bool) :
    (loadRows f = [] → sort_by (some f) key rev = .ok []) ∧
    (∀ r0 rest, loadRows f = r0 :: rest → Row.hasKey r0 key = false →
      sort_by (some f) key rev = .error .keyError) ∧
    (∀ r0 rest, loadRows f = r0 :: rest → Row.hasKey r0 key = false →
      ∀ out, sort_by (some f) key rev ≠ .ok out) := by
  refine ⟨fun h => by simp [sort_by, h], fun r0 rest h hk => by simp [sort_by, h, hk],
    fun r0 rest h hk out => by simp [sort_by, h, hk]⟩

/-- Witness for the amended C5 at a one-row file without the key `"nope"`. -/
theorem C5_bad_key_vs_empty_witness :
    sort_by (some ⟨["id"], [["1"]]⟩) "nope" false = .error .keyError :=
  (C5_bad_key_vs_empty ⟨["id"], [["1"]]⟩ "nope" false).2.1
    [("id", "1")] [] (by decide) (by decide)

/-! ### C4: `del_data` removes exactly the matching rows -/

theorem filterNeLoop_ok (key v : String) (data : List Row)
    (hk : ∀ r ∈ data, (Row.getVal r key).isSome) :
    filterNeLoop key v data =
      .ok (data.filter (fun r => Row.getVal r key != some v)) := by
  induction data with
  | nil => rfl
  | cons r rs ih =>
    obtain ⟨x, hx⟩ := Option.isSome_iff_exists.1 (hk r (List.mem_cons_self _ _))
    have ih' := ih (fun r hr => hk r (List.mem_cons_of_mem _ hr))
    by_cases hxv : x = v
    · subst hxv
      simp [filterNeLoop, hx, ih']
    · simp [filterNeLoop, hx, ih', hxv]

/-- C4: on an existing file whose loaded rows all carry the key column,
`del_data` removes exactly the loaded rows whose key value equals the value
to delete, keeps the remaining rows in their original relative order (the
result is a sublist of the load), writes the filtered sequence back as the
new file, stores it as the new in-memory rows, and a subsequent in-memory
search for the deleted value finds nothing. -/
theorem C4_del_data_filters (fields : List String) (f : CsvFile) (v key : String)
    (hkey : key ∈ f.header)
    (hk : ∀ r ∈ loadRows f, (Row.getVal r key).isSome) :
    ∃ filtered,
      del_data fields (some f) v key = .ok (f.header, filtered, writeCsv f.header filtered) ∧
      filtered = (loadRows f).filter (fun r => Row.getVal r key != some v) ∧
      filtered.Sublist (loadRows f) ∧
      (∀ r ∈ filtered, Row.getVal r key ≠ some v) ∧
      search_column f.header filtered key v = .ok .notFound := by
  have hh : ¬ f.header.isEmpty := by
    intro hempty
    rw [List.isEmpty_iff] at hempty
    rw [hempty] at hkey
    simp at hkey
  refine ⟨(loadRows f).filter (fun r => Row.getVal r key != some v), ?_, rfl, ?_, ?_, ?_⟩
  · simp [del_data, hh, filterNeLoop_ok key v (loadRows f) hk]
  · exact List.filter_sublist _
  · intro r hr
    have := List.of_mem_filter hr
    simpa using this
  · simp only [search_column, hkey, if_true]
    refine searchLoop_notFound key v _ (fun r hr => hk r (List.mem_of_mem_filter hr)) ?_
    intro r hr
    have := List.of_mem_filter hr
    simpa using this

/-- Witness for C4 at a concrete four-row file, deleting `name = "Robart"`. -/
theorem C4_del_data_filters_witness :
    (("name" : String) ∈ (⟨["name"], [["Robart"], ["Elon"], ["Jisan"], ["Robart"]]⟩ :
      CsvFile).header) ∧
    ∃ filtered,
      del_data ["name"] (some ⟨["name"], [["Robart"], ["Elon"], ["Jisan"], ["Robart"]]⟩)
          "Robart" "name" =
        .ok (["name"], filtered, writeCsv ["name"] filtered) ∧
      filtered = (loadRows ⟨["name"], [["Robart"], ["Elon"], ["Jisan"], ["Robart"]]⟩).filter
        (fun r => Row.getVal r "name" != some "Robart") ∧
      filtered.Sublist (loadRows ⟨["name"], [["Robart"], ["Elon"], ["Jisan"], ["Robart"]]⟩) ∧
      (∀ r ∈ filtered, Row.getVal r "name" ≠ some "Robart") ∧
      search_column ["name"] filtered "name" "Robart" = .ok .notFound := by
  refine ⟨by decide, ?_⟩
  exact C4_del_data_filters ["name"] ⟨["name"], [["Robart"], ["Elon"], ["Jisan"], ["Robart"]]⟩
    "Robart" "name" (by decide) (by decide)

/-! ### C8: duplicate-freedom of the fields after structural operations -/

theorem set_indexOf_self {α : Type} [DecidableEq α] (l : List α) (a : α) :
    l.set (List.indexOf a l) a = l := by
  induction l with
  | nil => rfl
  | cons b l ih =>
    by_cases h : b = a
    · subst h
      rw [List.indexOf_cons_self]
      rfl
    · rw [List.indexOf_cons_ne _ h]
      simpa using ih

theorem set_nodup_of_not_mem {α : Type} {l : List α} {x : α}
    (hnd : l.Nodup) (hx : x ∉ l) : ∀ i, (l.set i x).Nodup := by
  intro i
  induction l generalizing i with
  | nil => simp
  | cons b l ih =>
    rw [List.nodup_cons] at hnd
    cases i with
    | zero =>
      rw [List.set]
      rw [List.nodup_cons]
      exact ⟨fun hmem => hx (List.mem_cons_of_mem _ hmem), hnd.2⟩
    | succ n =>
      rw [List.set]
      rw [List.nodup_cons]
      constructor
      · intro hb
        rcases List.mem_or_eq_of_mem_set hb with h1 | h1
        · exact hnd.1 h1
        · exact hx (h1 ▸ List.mem_cons_self _ _)
      · exact ih hnd.2 (fun hmem => hx (List.mem_cons_of_mem _ hmem)) n

theorem nodup_insertIdx {α : Type} {l : List α} {x : α}
    (hnd : l.Nodup) (hx : x ∉ l) : ∀ n, (l.insertIdx n x).Nodup := by
  intro n
  induction l generalizing n with
  | nil =>
    cases n with
    | zero => simp
    | succ n => simp
  | cons b l ih =>
    rw [List.nodup_cons] at hnd
    cases n with
    | zero =>
      rw [List.insertIdx_zero]
      rw [List.nodup_cons]
      exact ⟨hx, List.nodup_cons.2 hnd⟩
    | succ n =>
      rw [List.insertIdx_succ_cons]
      rw [List.nodup_cons]
      constructor
      · intro hb
        rcases le_or_lt n l.length with hn | hn
        · rcases (List.mem_insertIdx hn).1 hb with h1 | h1
          · exact hx (h1 ▸ List.mem_cons_self _ _)
          · exact hnd.1 h1
        · rw [List.insertIdx_of_length_lt _ _ _ hn] at hb
          exact hnd.1 hb
      · exact ih hnd.2 (fun hmem => hx (List.mem_cons_of_mem _ hmem)) n

/-- C8 counterexample: `rename_column` with a `new` name that is already
another existing column produces a duplicated fields sequence.  Renaming
`"id"` to `"name"` on columns `["id", "name", "age"]` yields
`["name", "name", "age"]`, which is not duplicate-free (and the row loses a
value: `row["name"] = row.pop("id")` overwrites the old `"name"` cell). -/
theorem C8_rename_duplicate_counterexample :
    rename_column ["id", "name", "age"] [[("id", "1"), ("name", "A"), ("age", "2")]] none
        "id" "name" =
      .ok (true, ["name", "name", "age"], [[("name", "1"), ("age", "2")]],
        some ⟨["name", "name", "age"], [["1", "1", "2"]]⟩) ∧
    ¬ (["name", "name", "age"] : List String).Nodup :=
  ⟨rfl, by decide⟩

/-- C8 (amended): starting from duplicate-free columns, `add_column` and
`add_column_position` always keep the columns duplicate-free, and
`rename_column` keeps them duplicate-free provided the new name is the old
name or is not an existing column; renaming onto a different existing column
violates the invariant (see the counterexample). -/
theorem C8_fields_nodup_preserved (fields : List String) (data : List Row)
    (disk : Option CsvFile) (col value old new : String) (pos : Int)
    (hnd : fields.Nodup) :
    (add_column fields data col value).1.Nodup ∧
    (add_column_position fields data col pos value).1.Nodup ∧
    (new = old ∨ new ∉ fields →
      ∀ flag fields' data' disk',
        rename_column fields data disk old new = .ok (flag, fields', data', disk') →
        fields'.Nodup) := by
  refine ⟨?_, ?_, ?_⟩
  · by_cases h : col ∈ fields
    · simpa [add_column, h] using hnd
    · have : (fields ++ [col]).Nodup := by
        rw [List.nodup_append]
        exact ⟨hnd, List.nodup_singleton col, by simpa using h⟩
      simpa [add_column, h]
  · have hbase : (if col ∈ fields then fields.erase col else fields).Nodup ∧
        col ∉ (if col ∈ fields then fields.erase col else fields) := by
      by_cases h : col ∈ fields
      · simp only [h, if_true]
        exact ⟨hnd.erase col, hnd.not_mem_erase⟩
      · rw [if_neg h]
        exact ⟨hnd, h⟩
    simpa [add_column_position, pyInsert] using nodup_insertIdx hbase.1 hbase.2 _
  · intro hcase flag fields' data' disk' heq
    by_cases h : old ∈ fields
    · simp only [rename_column, h, if_true] at heq
      cases hloop : renameLoop old new data with
      | error e => rw [hloop] at heq; exact absurd heq (by simp)
      | ok d =>
        rw [hloop] at heq
        simp only [Except.ok.injEq, Prod.mk.injEq] at heq
        obtain ⟨-, hfields, -, -⟩ := heq
        rcases hcase with hsame | hfresh
        · subst hsame
          rw [← hfields, set_indexOf_self]
          exact hnd
        · rw [← hfields]
          exact set_nodup_of_not_mem hnd hfresh _
    · simp only [rename_column, h, if_false, Except.ok.injEq, Prod.mk.injEq] at heq
      obtain ⟨-, hfields, -, -⟩ := heq
      rw [← hfields]
      exact hnd

/-- Witness for the amended C8 at concrete arguments (renaming to a fresh
name). -/
theorem C8_fields_nodup_preserved_witness :
    (["id", "name"] : List String).Nodup ∧
    (("full" : String) = "id" ∨ ("full" : String) ∉ ["id", "name"]) ∧
    ((add_column ["id", "name"] [[("id", "1"), ("name", "A")]] "city" "D").1.Nodup ∧
     (add_column_position ["id", "name"] [[("id", "1"), ("name", "A")]] "city" (-1) "D").1.Nodup ∧
     (("full" : String) = "id" ∨ ("full" : String) ∉ ["id", "name"] →
      ∀ flag fields' data' disk',
        rename_column ["id", "name"] [[("id", "1"), ("name", "A")]] none "id" "full" =
          .ok (flag, fields', data', disk') →
        fields'.Nodup)) := by
  refine ⟨by decide, by decide, ?_⟩
  exact C8_fields_nodup_preserved ["id", "name"] [[("id", "1"), ("name", "A")]] none
    "city" "D" "id" "full" (-1) (by decide)

/-! ### C10: `add_column_position` accepts any position -/

theorem insertIdx_eq_take_cons_drop {α : Type} (x : α) :
    ∀ (n : ℕ) (l : List α), n ≤ l.length →
      l.insertIdx n x = l.take n ++ x :: l.drop n := by
  intro n
  induction n with
  | zero => intro l _; simp
  | succ n ih =>
    intro l hl
    cases l with
    | nil => simp at hl
    | cons b l =>
      rw [List.insertIdx_succ_cons]
      rw [ih l (Nat.le_of_succ_le_succ hl)]
      rfl

theorem pyInsert_idx_le (l : List String) (i : Int) :
    (if i < 0 then max 0 ((l.length : Int) + i) else min i (l.length : Int)).toNat
      ≤ l.length := by
  split <;> omega

theorem mem_pyInsert {l : List String} {x y : String} {i : Int}
    (h : y ∈ pyInsert l i x) : y = x ∨ y ∈ l := by
  rw [pyInsert] at h
  exact (List.mem_insertIdx (pyInsert_idx_le l i)).1 h

theorem self_mem_pyInsert (l : List String) (x : String) (i : Int) :
    x ∈ pyInsert l i x := by
  rw [pyInsert]
  exact (List.mem_insertIdx (pyInsert_idx_le l i)).2 (Or.inl rfl)

theorem pyInsert_ge (l : List String) (i : Int) (x : String)
    (h : (l.length : Int) ≤ i) : pyInsert l i x = l ++ [x] := by
  rw [pyInsert]
  have h0 : ¬ i < 0 := by omega
  have h1 : min i (l.length : Int) = (l.length : Int) := by omega
  simp only [h0, if_false, h1, Int.toNat_natCast]
  exact List.insertIdx_length_self l x

theorem pyInsert_neg_in (l : List String) (i : Int) (x : String)
    (h0 : i < 0) (h1 : -(l.length : Int) ≤ i) :
    pyInsert l i x =
      l.take ((l.length : Int) + i).toNat ++ x :: l.drop ((l.length : Int) + i).toNat := by
  rw [pyInsert]
  have h2 : max 0 ((l.length : Int) + i) = (l.length : Int) + i := by omega
  have h3 : ((l.length : Int) + i).toNat ≤ l.length := by omega
  simp only [h0, if_true, h2]
  exact insertIdx_eq_take_cons_drop x _ l h3

theorem pyInsert_neg_clamp (l : List String) (i : Int) (x : String)
    (h0 : i < 0) (h1 : i ≤ -(l.length : Int)) : pyInsert l i x = x :: l := by
  rw [pyInsert]
  have h2 : (if i < 0 then max 0 ((l.length : Int) + i) else min i (l.length : Int)).toNat
      = 0 := by
    split <;> omega
  rw [h2]
  rfl

/-- C10: `add_column_position` never rejects a position.  Writing `base` for
the fields with the column name removed if present, a position at or beyond
the column count appends the name at the end; a negative position inserts
counting backward from the end of `base`, clamped to the front for
magnitudes beyond the length; and when the name is new every row is
back-filled with the default value, so the rows still cover all resulting
columns whenever they covered the previous ones. -/
theorem C10_add_column_position_total (fields : List String) (data : List Row)
    (col value : String) (pos : Int)
    (hcov : ∀ r ∈ data, ∀ fl ∈ fields, (Row.getVal r fl).isSome) :
    ∃ base fields' data' file,
      base = (if col ∈ fields then fields.erase col else fields) ∧
      add_column_position fields data col pos value = (fields', data', file) ∧
      ((fields.length : Int) ≤ pos → fields' = base ++ [col]) ∧
      (pos < 0 → -(base.length : Int) ≤ pos →
        fields' = base.take ((base.length : Int) + pos).toNat ++
          col :: base.drop ((base.length : Int) + pos).toNat) ∧
      (pos < 0 → pos ≤ -(base.length : Int) → fields' = col :: base) ∧
      col ∈ fields' ∧
      (col ∉ fields → data' = data.map (fun r => Row.setVal r col value)) ∧
      (∀ r ∈ data', ∀ fl ∈ fields', (Row.getVal r fl).isSome) := by
  refine ⟨if col ∈ fields then fields.erase col else fields,
    pyInsert (if col ∈ fields then fields.erase col else fields) pos col,
    if col ∈ fields then data else data.map (fun r => Row.setVal r col value),
    _, rfl, rfl, ?_, ?_, ?_, ?_, ?_, ?_⟩
  · intro h
    have hlen : ((if col ∈ fields then fields.erase col else fields).length : Int) ≤ pos := by
      by_cases hc : col ∈ fields
      · simp only [hc, if_true]
        have := List.length_erase_le col fields
        omega
      · simpa [hc] using h
    exact pyInsert_ge _ pos col hlen
  · intro h0 h1
    exact pyInsert_neg_in _ pos col h0 h1
  · intro h0 h1
    exact pyInsert_neg_clamp _ pos col h0 h1
  · exact self_mem_pyInsert _ col pos
  · intro h
    simp [h]
  · intro r hr fl hfl
    have hfl' : fl = col ∨ fl ∈ fields := by
      rcases mem_pyInsert hfl with h1 | h1
      · exact Or.inl h1
      · by_cases hc : col ∈ fields
        · rw [if_pos hc] at h1
          exact Or.inr (List.mem_of_mem_erase h1)
        · rw [if_neg hc] at h1
          exact Or.inr h1
    by_cases hc : col ∈ fields
    · rw [if_pos hc] at hr
      rcases hfl' with h1 | h1
      · exact h1 ▸ hcov r hr col hc
      · exact hcov r hr fl h1
    · rw [if_neg hc] at hr
      obtain ⟨r0, hr0, hmap⟩ := List.mem_map.1 hr
      subst hmap
      rcases hfl' with h1 | h1
      · subst h1
        simp [Row.getVal_setVal_self]
      · exact Row.getVal_isSome_setVal r0 col value (hcov r0 hr0 fl h1)

/-- Witness for C10 at concrete arguments (a new column at position `-1`). -/
theorem C10_add_column_position_total_witness :
    (∀ r ∈ [[("id", "1"), ("name", "A")]], ∀ fl ∈ ["id", "name"],
      (Row.getVal r fl).isSome) ∧
    ∃ base fields' data' file,
      base = (if ("city" : String) ∈ ["id", "name"] then ["id", "name"].erase "city"
        else ["id", "name"]) ∧
      add_column_position ["id", "name"] [[("id", "1"), ("name", "A")]] "city" (-1) "D" =
        (fields', data', file) ∧
      (((["id", "name"] : List String).length : Int) ≤ -1 → fields' = base ++ ["city"]) ∧
      ((-1 : Int) < 0 → -(base.length : Int) ≤ -1 →
        fields' = base.take ((base.length : Int) + (-1)).toNat ++
          "city" :: base.drop ((base.length : Int) + (-1)).toNat) ∧
      ((-1 : Int) < 0 → (-1 : Int) ≤ -(base.length : Int) → fields' = "city" :: base) ∧
      ("city" : String) ∈ fields' ∧
      (("city" : String) ∉ ["id", "name"] →
        data' = [[("id", "1"), ("name", "A")]].map (fun r => Row.setVal r "city" "D")) ∧
      (∀ r ∈ data', ∀ fl ∈ fields', (Row.getVal r fl).isSome) := by
  refine ⟨by decide, ?_⟩
  exact C10_add_column_position_total ["id", "name"] [[("id", "1"), ("name", "A")]]
    "city" "D" (-1) (by decide)

/-! ### C1: sort semantics — numeric with all-or-nothing lexicographic
fallback, stability, descending flag -/

instance (key : String) : IsTotal Row (ascNum key) :=
  ⟨fun a b => le_total (numKey key a) (numKey key b)⟩

instance (key : String) : IsTrans Row (ascNum key) :=
  ⟨fun _ _ _ hab hbc => le_trans hab hbc⟩

instance (key : String) : IsTotal Row (descNum key) :=
  ⟨fun a b => le_total (numKey key b) (numKey key a)⟩

instance (key : String) : IsTrans Row (descNum key) :=
  ⟨fun _ _ _ hab hbc => le_trans hbc hab⟩

instance (key : String) : IsTotal Row (ascStr key) :=
  ⟨fun a b => le_total (strKey key a) (strKey key b)⟩

instance (key : String) : IsTrans Row (ascStr key) :=
  ⟨fun _ _ _ hab hbc => le_trans hab hbc⟩

instance (key : String) : IsTotal Row (descStr key) :=
  ⟨fun a b => le_total (strKey key b) (strKey key a)⟩

instance (key : String) : IsTrans Row (descStr key) :=
  ⟨fun _ _ _ hab hbc => le_trans hbc hab⟩

/-- The numeric key is a function of the raw text key (a missing key and an
unparsable value both yield the placeholder `0`). -/
theorem numKey_eq_pyFloat_strKey (key : String) (r : Row) :
    numKey key r = (pyFloat? (strKey key r)).getD 0 := by
  cases h : Row.getVal r key with
  | none =>
    have h0 : pyFloat? "" = none := rfl
    simp [numKey, strKey, h, h0]
  | some s => simp [numKey, strKey, h]

/-- Filtering a class of a key function through `orderedInsert`: the inserted
element lands in front of its own class because every element it is placed
after compares strictly below it and hence lies in another class. -/
theorem filter_orderedInsert_class {α β : Type} [DecidableEq β]
    (r : α → α → Prop) [DecidableRel r] (K : α → β)
    (h : ∀ x y, ¬ r x y → K x ≠ K y) (x : α) (l : List α) (v : β) :
    (List.orderedInsert r x l).filter (fun a => decide (K a = v)) =
      if K x = v then x :: l.filter (fun a => decide (K a = v))
      else l.filter (fun a => decide (K a = v)) := by
  induction l with
  | nil =>
    by_cases hx : K x = v
    · simp [List.orderedInsert, hx]
    · simp [List.orderedInsert, hx]
  | cons b l ih =>
    by_cases hr : r x b
    · by_cases hx : K x = v
      · simp [List.orderedInsert, hr, List.filter_cons, hx]
      · simp [List.orderedInsert, hr, List.filter_cons, hx]
    · have hKb : K x ≠ K b := h x b hr
      by_cases hx : K x = v
      · have hb : ¬ K b = v := fun hbv => hKb (hx.trans hbv.symm)
        simp [List.orderedInsert, hr, List.filter_cons, hx, hb, ih]
      · by_cases hb : K b = v
        · simp [List.orderedInsert, hr, List.filter_cons, hx, hb, ih]
        · simp [List.orderedInsert, hr, List.filter_cons, hx, hb, ih]

/-- Stability of `insertionSort`, stated per class of the sort key: every
class of the key function appears in the sorted output in its original
relative order. -/
theorem filter_insertionSort_class {α β : Type} [DecidableEq β]
    (r : α → α → Prop) [DecidableRel r] (K : α → β)
    (h : ∀ x y, ¬ r x y → K x ≠ K y) (l : List α) (v : β) :
    (List.insertionSort r l).filter (fun a => decide (K a = v)) =
      l.filter (fun a => decide (K a = v)) := by
  induction l with
  | nil => rfl
  | cons x l ih =>
    rw [List.insertionSort, filter_orderedInsert_class r K h x _ v]
    by_cases hx : K x = v
    · rw [if_pos hx, ih, List.filter_cons]
      simp [hx]
    · rw [if_neg hx, ih, List.filter_cons]
      simp [hx]

/-- C1: on an existing file loading to non-empty rows that all carry the sort
key, `sort_by` succeeds; the output is a permutation of the load; when every
key value parses as a number the output is numerically ordered (reversed by
the descending flag), otherwise — one bad value suffices — the whole sequence
is ordered lexicographically on the raw text (again reversed by the flag);
and the sort is stable: each class of equal numeric keys (in the numeric
regime) and each class of equal raw-text keys keeps its original relative
order. -/
theorem C1_sort_by_semantics (f : CsvFile) (key : String) (rev : Bool)
    (hne : loadRows f ≠ [])
    (hk : ∀ r ∈ loadRows f, (Row.getVal r key).isSome) :
    ∃ out, sort_by (some f) key rev = .ok out ∧
      out.Perm (loadRows f) ∧
      ((∀ r ∈ loadRows f, (pyFloat? (strKey key r)).isSome) →
        out.Pairwise (fun a b => if rev then descNum key a b else ascNum key a b)) ∧
      ((¬ ∀ r ∈ loadRows f, (pyFloat? (strKey key r)).isSome) →
        out.Pairwise (fun a b => if rev then descStr key a b else ascStr key a b)) ∧
      ((∀ r ∈ loadRows f, (pyFloat? (strKey key r)).isSome) →
        ∀ q : ℚ, out.filter (fun r => decide (numKey key r = q)) =
          (loadRows f).filter (fun r => decide (numKey key r = q))) ∧
      (∀ s : String, out.filter (fun r => decide (strKey key r = s)) =
        (loadRows f).filter (fun r => decide (strKey key r = s))) := by
  obtain ⟨r0, rest, hdata⟩ := List.exists_cons_of_ne_nil hne
  have hk0 : Row.hasKey r0 key = true :=
    hk r0 (by rw [hdata]; exact List.mem_cons_self _ _)
  have hall : ((r0 :: rest).all fun r => Row.hasKey r key) = true :=
    List.all_eq_true.2 (fun r hr => hk r (by rw [hdata]; exact hr))
  have hAnum : ∀ x y, ¬ ascNum key x y → numKey key x ≠ numKey key y :=
    fun x y hn he => hn (le_of_eq he)
  have hDnum : ∀ x y, ¬ descNum key x y → numKey key x ≠ numKey key y :=
    fun x y hn he => hn (le_of_eq he.symm)
  have hAstr : ∀ x y, ¬ ascStr key x y → strKey key x ≠ strKey key y :=
    fun x y hn he => hn (le_of_eq he)
  have hDstr : ∀ x y, ¬ descStr key x y → strKey key x ≠ strKey key y :=
    fun x y hn he => hn (le_of_eq he.symm)
  have hAnumStr : ∀ x y, ¬ ascNum key x y → strKey key x ≠ strKey key y := by
    intro x y hn he
    refine hn (le_of_eq ?_)
    rw [numKey_eq_pyFloat_strKey, numKey_eq_pyFloat_strKey, he]
  have hDnumStr : ∀ x y, ¬ descNum key x y → strKey key x ≠ strKey key y := by
    intro x y hn he
    refine hn (le_of_eq ?_)
    rw [numKey_eq_pyFloat_strKey, numKey_eq_pyFloat_strKey, he]
  by_cases hnum : ∀ r ∈ loadRows f, (pyFloat? (strKey key r)).isSome
  · have hnb : ((r0 :: rest).all fun r => (pyFloat? (strKey key r)).isSome) = true :=
      List.all_eq_true.2 (fun r hr => hnum r (by rw [hdata]; exact hr))
    refine ⟨pySortedNum key rev (r0 :: rest), ?_, ?_, ?_, ?_, ?_, ?_⟩
    · simp [sort_by, hdata, hk0, hall, hnb]
    · rw [hdata]
      cases rev
      · simpa [pySortedNum] using List.perm_insertionSort (ascNum key) (r0 :: rest)
      · simpa [pySortedNum] using List.perm_insertionSort (descNum key) (r0 :: rest)
    · intro _
      cases rev
      · simpa [pySortedNum] using List.sorted_insertionSort (ascNum key) (r0 :: rest)
      · simpa [pySortedNum] using List.sorted_insertionSort (descNum key) (r0 :: rest)
    · intro hcontra
      exact absurd hnum hcontra
    · intro _ q
      rw [hdata]
      cases rev
      · simpa [pySortedNum] using
          filter_insertionSort_class (ascNum key) (numKey key) hAnum (r0 :: rest) q
      · simpa [pySortedNum] using
          filter_insertionSort_class (descNum key) (numKey key) hDnum (r0 :: rest) q
    · intro s
      rw [hdata]
      cases rev
      · simpa [pySortedNum] using
          filter_insertionSort_class (ascNum key) (strKey key) hAnumStr (r0 :: rest) s
      · simpa [pySortedNum] using
          filter_insertionSort_class (descNum key) (strKey key) hDnumStr (r0 :: rest) s
  · have hnb : ((r0 :: rest).all fun r => (pyFloat? (strKey key r)).isSome) = false := by
      rw [Bool.eq_false_iff]
      intro hcontra
      exact hnum (fun r hr =>
        List.all_eq_true.1 hcontra r (by rw [hdata] at hr; exact hr))
    refine ⟨pySortedStr key rev (r0 :: rest), ?_, ?_, ?_, ?_, ?_, ?_⟩
    · simp [sort_by, hdata, hk0, hall, hnb]
    · rw [hdata]
      cases rev
      · simpa [pySortedStr] using List.perm_insertionSort (ascStr key) (r0 :: rest)
      · simpa [pySortedStr] using List.perm_insertionSort (descStr key) (r0 :: rest)
    · intro hcontra
      exact absurd hcontra hnum
    · intro _
      cases rev
      · simpa [pySortedStr] using List.sorted_insertionSort (ascStr key) (r0 :: rest)
      · simpa [pySortedStr] using List.sorted_insertionSort (descStr key) (r0 :: rest)
    · intro hcontra
      exact absurd hcontra hnum
    · intro s
      rw [hdata]
      cases rev
      · simpa [pySortedStr] using
          filter_insertionSort_class (ascStr key) (strKey key) hAstr (r0 :: rest) s
      · simpa [pySortedStr] using
          filter_insertionSort_class (descStr key) (strKey key) hDstr (r0 :: rest) s

/-- Witness for C1 at the repository's own four-row test table, sorting by
`"score"` descending. -/
theorem C1_sort_by_semantics_witness :
    (loadRows ⟨["id", "name", "score"],
      [["1", "Robart", "90"], ["2", "Elon", "85"], ["3", "Jisan", "92"],
       ["4", "Tom", "90"]]⟩ ≠ []) ∧
    (∀ r ∈ loadRows ⟨["id", "name", "score"],
      [["1", "Robart", "90"], ["2", "Elon", "85"], ["3", "Jisan", "92"],
       ["4", "Tom", "90"]]⟩, (Row.getVal r "score").isSome) ∧
    ∃ out, sort_by (some ⟨["id", "name", "score"],
        [["1", "Robart", "90"], ["2", "Elon", "85"], ["3", "Jisan", "92"],
         ["4", "Tom", "90"]]⟩) "score" true = .ok out ∧
      out.Perm (loadRows ⟨["id", "name", "score"],
        [["1", "Robart", "90"], ["2", "Elon", "85"], ["3", "Jisan", "92"],
         ["4", "Tom", "90"]]⟩) ∧
      ((∀ r ∈ loadRows ⟨["id", "name", "score"],
          [["1", "Robart", "90"], ["2", "Elon", "85"], ["3", "Jisan", "92"],
           ["4", "Tom", "90"]]⟩, (pyFloat? (strKey "score" r)).isSome) →
        out.Pairwise (fun a b => if true then descNum "score" a b
          else ascNum "score" a b)) ∧
      ((¬ ∀ r ∈ loadRows ⟨["id", "name", "score"],
          [["1", "Robart", "90"], ["2", "Elon", "85"], ["3", "Jisan", "92"],
           ["4", "Tom", "90"]]⟩, (pyFloat? (strKey "score" r)).isSome) →
        out.Pairwise (fun a b => if true then descStr "score" a b
          else ascStr "score" a b)) ∧
      ((∀ r ∈ loadRows ⟨["id", "name", "score"],
          [["1", "Robart", "90"], ["2", "Elon", "85"], ["3", "Jisan", "92"],
           ["4", "Tom", "90"]]⟩, (pyFloat? (strKey "score" r)).isSome) →
        ∀ q : ℚ, out.filter (fun r => decide (numKey "score" r = q)) =
          (loadRows ⟨["id", "name", "score"],
            [["1", "Robart", "90"], ["2", "Elon", "85"], ["3", "Jisan", "92"],
             ["4", "Tom", "90"]]⟩).filter (fun r => decide (numKey "score" r = q))) ∧
      (∀ s : String, out.filter (fun r => decide (strKey "score" r = s)) =
        (loadRows ⟨["id", "name", "score"],
          [["1", "Robart", "90"], ["2", "Elon", "85"], ["3", "Jisan", "92"],
           ["4", "Tom", "90"]]⟩).filter (fun r => decide (strKey "score" r = s))) := by
  refine ⟨by decide, by decide, ?_⟩
  exact C1_sort_by_semantics ⟨["id", "name", "score"],
    [["1", "Robart", "90"], ["2", "Elon", "85"], ["3", "Jisan", "92"],
     ["4", "Tom", "90"]]⟩ "score" true (by decide) (by decide)

/-! ### C7: byte-level round trip

The `csv` module's default dialect: delimiter `,`, quote char `"`,
`QUOTE_MINIMAL` (a field is quoted exactly when it contains a delimiter, a
quote, or a CR/LF; quotes are doubled; a record consisting of one single
empty field is written as `""` to keep it distinct from a blank line), line
terminator `"\r\n"` on writing.  Reading goes through `open(...)` in text
mode, whose universal-newline translation folds `"\r\n"` and `"\r"` into
`"\n"`, then `csv.DictReader` splits lines and parses each record.  The
parser below is faithful on the no-embedded-newline format that `save_csv`
produces (the file format of the library: one record per line). -/

/-- Does `QUOTE_MINIMAL` quote this field? -/
def needsQuote (s : String) : Bool :=
  s.data.any (fun c => c == ',' || c == '"' || c == '\r' || c == '\n')

/-- Double every quote character (the writer's escaping). -/
def escapeQuotes : List Char → List Char
  | [] => []
  | c :: cs =>
    if c = '"' then '"' :: '"' :: escapeQuotes cs else c :: escapeQuotes cs

/-- One written field: quoted and escaped when needed, verbatim otherwise. -/
def serializeField (s : String) : List Char :=
  if needsQuote s then '"' :: (escapeQuotes s.data ++ ['"']) else s.data

/-- Comma-join the written fields of one record. -/
def joinComma : List (List Char) → List Char
  | [] => []
  | [x] => x
  | x :: y :: xs => x ++ ',' :: joinComma (y :: xs)

/-- One written record (sans terminator); the writer quotes a lone empty
field so the line stays distinct from a blank line. -/
def serializeRecord (cells : List String) : List Char :=
  if cells = [""] then ['"', '"'] else joinComma (cells.map serializeField)

/-- All lines, each followed by the `"\r\n"` terminator. -/
def serializeLines (lines : List (List Char)) : List Char :=
  lines.foldr (fun l acc => l ++ '\r' :: '\n' :: acc) []

/-- The bytes `csv.DictWriter` produces for a structural file. -/
def serializeFile (f : CsvFile) : List Char :=
  serializeLines ((f.header :: f.records).map serializeRecord)

/-- `save_csv` at the byte level. -/
def saveBytes (fields : List String) (data : List Row) : List Char :=
  serializeFile (writeCsv fields data)

/-- Universal-newline translation done by `open(..., "r")`: `"\r\n"` and
lone `"\r"` both become `"\n"`. -/
def univNL : List Char → List Char
  | [] => []
  | c :: cs =>
    if c = '\r' then
      match cs with
      | [] => ['\n']
      | c2 :: cs2 => if c2 = '\n' then '\n' :: univNL cs2 else '\n' :: univNL (c2 :: cs2)
    else c :: univNL cs

/-- Split a translated text into its lines (terminators dropped; iterating a
Python text file yields exactly these). -/
def getLinesAux : List Char → List Char → List (List Char)
  | [], acc => if acc.isEmpty then [] else [acc.reverse]
  | c :: cs, acc =>
    if c = '\n' then acc.reverse :: getLinesAux cs [] else getLinesAux cs (c :: acc)

/-- The lines of a text. -/
def getLines (cs : List Char) : List (List Char) := getLinesAux cs []

/-- Inside a quoted field: a doubled quote is a literal quote, a single quote
closes the field.  (Faithful on writer-produced records, where a closing
quote is followed by a delimiter or the end of the record.) -/
def parseQuoted : List Char → List Char → List Char × List Char
  | [], acc => (acc.reverse, [])
  | c :: cs, acc =>
    if c = '"' then
      match cs with
      | [] => (acc.reverse, [])
      | c2 :: cs2 =>
        if c2 = '"' then parseQuoted cs2 ('"' :: acc) else (acc.reverse, c2 :: cs2)
    else parseQuoted cs (c :: acc)

/-- An unquoted field: everything up to the next delimiter. -/
def parseUnquoted : List Char → List Char → List Char × List Char
  | [], acc => (acc.reverse, [])
  | c :: cs, acc =>
    if c = ',' then (acc.reverse, c :: cs) else parseUnquoted cs (c :: acc)

/-- One field: quoted when it starts with a quote, unquoted otherwise. -/
def parseField : List Char → List Char × List Char
  | [] => ([], [])
  | c :: cs => if c = '"' then parseQuoted cs [] else parseUnquoted (c :: cs) []

/-- The fields of one record: repeatedly parse a field and consume the
delimiter after it (fuel bounds the recursion; any fuel of at least the
number of cells computes the result). -/
def parseCellsAux : ℕ → List Char → List String
  | 0, _ => []
  | n + 1, cs =>
    match parseField cs with
    | (fld, ',' :: rest) => String.mk fld :: parseCellsAux n rest
    | (fld, _) => [String.mk fld]

/-- One parsed line: a blank line is the empty record (which `DictReader`
skips in the data section). -/
def parseLine (line : List Char) : List String :=
  if line.isEmpty then [] else parseCellsAux (line.length + 1) line

/-- All records of a text, as `csv.reader` yields them. -/
def parseCsvText (cs : List Char) : List (List String) :=
  (getLines (univNL cs)).map parseLine

/-- The structural file recovered from bytes: the first record is the
header, the rest are the data records (`DictReader` semantics); an empty
text has no header (`fieldnames` is `None`). -/
def parseCsvFile (text : List Char) : Option CsvFile :=
  match parseCsvText text with
  | [] => none
  | header :: recs => some ⟨header, recs⟩

/-- `_load_csv` at the byte level: parse, then load structurally. -/
def load_from_bytes (fields : List String) (text : List Char) :
    List String × List Row :=
  load_csv fields (parseCsvFile text)

/-- The library's file format excludes embedded newlines (one record per
line); values and field names are CR/LF-free. -/
def noCRLF (s : String) : Prop := ∀ c ∈ s.data, c ≠ '\r' ∧ c ≠ '\n'

instance (s : String) : Decidable (noCRLF s) :=
  inferInstanceAs (Decidable (∀ c ∈ s.data, c ≠ '\r' ∧ c ≠ '\n'))

/-! Inversion of the record parser on serializer output. -/

theorem stringMk_data (s : String) : String.mk s.data = s := rfl

/-- A delimiter or the end of the record: what legally follows a field. -/
def fieldStop (rest : List Char) : Prop := rest = [] ∨ ∃ rs, rest = ',' :: rs

theorem parseUnquoted_append (l : List Char) :
    ∀ (acc rest : List Char), (∀ c ∈ l, c ≠ ',') → fieldStop rest →
      parseUnquoted (l ++ rest) acc = (acc.reverse ++ l, rest) := by
  induction l with
  | nil =>
    intro acc rest _ hrest
    rcases hrest with h | ⟨rs, h⟩
    · subst h
      simp [parseUnquoted]
    · subst h
      simp [parseUnquoted]
  | cons c l ih =>
    intro acc rest hl hrest
    have hc : ¬ c = ',' := hl c (List.mem_cons_self _ _)
    rw [List.cons_append]
    rw [parseUnquoted]
    rw [if_neg hc]
    rw [ih (c :: acc) rest (fun d hd => hl d (List.mem_cons_of_mem _ hd)) hrest]
    simp

theorem parseQuoted_escape (l : List Char) :
    ∀ (acc rest : List Char), fieldStop rest →
      parseQuoted (escapeQuotes l ++ '"' :: rest) acc = (acc.reverse ++ l, rest) := by
  induction l with
  | nil =>
    intro acc rest hrest
    rcases hrest with h | ⟨rs, h⟩
    · subst h
      simp [escapeQuotes, parseQuoted]
    · subst h
      simp [escapeQuotes, parseQuoted]
  | cons c l ih =>
    intro acc rest hrest
    by_cases hc : c = '"'
    · subst hc
      rw [escapeQuotes]
      rw [if_pos rfl]
      rw [List.cons_append, List.cons_append]
      rw [parseQuoted.eq_def]
      simp only [if_pos rfl]
      rw [ih ('"' :: acc) rest hrest]
      simp
    · rw [escapeQuotes]
      rw [if_neg hc]
      rw [List.cons_append]
      rw [parseQuoted.eq_def]
      simp only [if_neg hc]
      rw [ih (c :: acc) rest hrest]
      simp

theorem not_needsQuote_chars {s : String} (h : ¬ needsQuote s = true) :
    ∀ c ∈ s.data, c ≠ ',' ∧ c ≠ '"' := by
  intro c hc
  rw [needsQuote, List.any_eq_true] at h
  push_neg at h
  have := h c hc
  constructor
  · intro hh
    subst hh
    simp at this
  · intro hh
    subst hh
    simp at this

theorem parseField_serializeField (s : String) (rest : List Char)
    (hrest : fieldStop rest) :
    parseField (serializeField s ++ rest) = (s.data, rest) := by
  by_cases hq : needsQuote s = true
  · rw [serializeField, if_pos hq]
    rw [List.cons_append, List.append_assoc]
    rw [parseField]
    rw [if_pos rfl]
    rw [List.singleton_append]
    exact parseQuoted_escape s.data [] rest hrest
  · have hchars := not_needsQuote_chars hq
    rw [serializeField, if_neg hq]
    cases hd : s.data with
    | nil =>
      rw [List.nil_append]
      rcases hrest with h | ⟨rs, h⟩
      · subst h
        rfl
      · subst h
        rw [parseField]
        rw [if_neg (by decide : ¬ (',' : Char) = '"')]
        exact parseUnquoted_append [] [] (',' :: rs) (by simp) (Or.inr ⟨rs, rfl⟩)
    | cons c cs =>
      have hcq : ¬ c = '"' := (hchars c (by rw [hd]; exact List.mem_cons_self _ _)).2
      rw [List.cons_append]
      rw [parseField]
      rw [if_neg hcq]
      rw [← List.cons_append]
      exact parseUnquoted_append (c :: cs) [] rest
        (fun d hd2 => (hchars d (by rw [hd]; exact hd2)).1) hrest

theorem joinComma_cons_cons (x y : List Char) (xs : List (List Char)) :
    joinComma (x :: y :: xs) = x ++ ',' :: joinComma (y :: xs) := rfl

theorem parseCellsAux_join (cells : List String) :
    ∀ fuel : ℕ, cells ≠ [] → cells.length ≤ fuel →
      parseCellsAux fuel (joinComma (cells.map serializeField)) = cells := by
  induction cells with
  | nil => intro fuel h _; exact absurd rfl h
  | cons c cs ih =>
    intro fuel _ hfuel
    cases fuel with
    | zero => simp at hfuel
    | succ n =>
      cases cs with
      | nil =>
        have hp : parseField (serializeField c ++ []) = (c.data, []) :=
          parseField_serializeField c [] (Or.inl rfl)
        rw [List.append_nil] at hp
        simp only [List.map_cons, List.map_nil, joinComma, parseCellsAux, hp]
      | cons c2 cs2 =>
        have hstop : fieldStop (',' :: joinComma ((c2 :: cs2).map serializeField)) :=
          Or.inr ⟨_, rfl⟩
        have hp := parseField_serializeField c
          (',' :: joinComma ((c2 :: cs2).map serializeField)) hstop
        simp only [List.map_cons] at hp ⊢
        rw [joinComma_cons_cons]
        simp only [parseCellsAux, hp]
        rw [stringMk_data]
        have hlen : (c2 :: cs2).length ≤ n := by
          simp only [List.length_cons] at hfuel ⊢
          omega
        have := ih n (by simp) hlen
        simp only [List.map_cons] at this
        rw [this]

theorem data_ne_nil_of_ne_empty {s : String} (h : s ≠ "") : s.data ≠ [] := by
  intro hd
  apply h
  rw [← stringMk_data s, hd]

theorem serializeRecord_ne_nil {cells : List String} (h : cells ≠ []) :
    serializeRecord cells ≠ [] := by
  rw [serializeRecord]
  by_cases hsp : cells = [""]
  · rw [if_pos hsp]
    simp
  · rw [if_neg hsp]
    cases cells with
    | nil => exact absurd rfl h
    | cons c cs =>
      cases cs with
      | nil =>
        have hc : c ≠ "" := fun hce => hsp (by rw [hce])
        simp only [List.map_cons, List.map_nil, joinComma]
        rw [serializeField]
        by_cases hq : needsQuote c = true
        · rw [if_pos hq]
          simp
        · rw [if_neg hq]
          exact data_ne_nil_of_ne_empty hc
      | cons c2 cs2 =>
        simp only [List.map_cons, joinComma_cons_cons]
        simp

theorem joinComma_length_ge (xss : List (List Char)) :
    xss.length ≤ (joinComma xss).length + 1 := by
  induction xss with
  | nil => simp
  | cons x xs ih =>
    cases xs with
    | nil => simp [joinComma]
    | cons y ys =>
      rw [joinComma_cons_cons]
      simp only [List.length_cons, List.length_append] at ih ⊢
      omega

/-- Parsing one written record recovers its cells. -/
theorem parseLine_serializeRecord {cells : List String} (h : cells ≠ []) :
    parseLine (serializeRecord cells) = cells := by
  by_cases hsp : cells = [""]
  · subst hsp
    rfl
  · have hne := serializeRecord_ne_nil h
    rw [parseLine]
    rw [if_neg (by simpa using hne)]
    rw [serializeRecord] at hne ⊢
    rw [if_neg hsp] at hne ⊢
    have hlen : cells.length ≤ (joinComma (cells.map serializeField)).length + 1 := by
      have := joinComma_length_ge (cells.map serializeField)
      simpa using this
    exact parseCellsAux_join cells _ h hlen

/-! Characters occurring in serialized records. -/

theorem mem_escapeQuotes {c : Char} {l : List Char} (h : c ∈ escapeQuotes l) :
    c ∈ l ∨ c = '"' := by
  induction l with
  | nil => simp [escapeQuotes] at h
  | cons d l ih =>
    rw [escapeQuotes] at h
    by_cases hd : d = '"'
    · rw [if_pos hd] at h
      rcases List.mem_cons.1 h with h1 | h1
      · exact Or.inr h1
      rcases List.mem_cons.1 h1 with h2 | h2
      · exact Or.inr h2
      rcases ih h2 with h3 | h3
      · exact Or.inl (List.mem_cons_of_mem _ h3)
      · exact Or.inr h3
    · rw [if_neg hd] at h
      rcases List.mem_cons.1 h with h1 | h1
      · exact Or.inl (h1 ▸ List.mem_cons_self _ _)
      rcases ih h1 with h3 | h3
      · exact Or.inl (List.mem_cons_of_mem _ h3)
      · exact Or.inr h3

theorem mem_serializeField {c : Char} {s : String} (h : c ∈ serializeField s) :
    c ∈ s.data ∨ c = '"' := by
  rw [serializeField] at h
  by_cases hq : needsQuote s = true
  · rw [if_pos hq] at h
    rcases List.mem_cons.1 h with h1 | h1
    · exact Or.inr h1
    rcases List.mem_append.1 h1 with h2 | h2
    · exact mem_escapeQuotes h2
    · exact Or.inr (by simpa using h2)
  · rw [if_neg hq] at h
    exact Or.inl h

theorem mem_joinComma {c : Char} {xss : List (List Char)} (h : c ∈ joinComma xss) :
    (∃ xs ∈ xss, c ∈ xs) ∨ c = ',' := by
  induction xss with
  | nil => simp [joinComma] at h
  | cons x xs ih =>
    cases xs with
    | nil =>
      simp only [joinComma] at h
      exact Or.inl ⟨x, List.mem_cons_self _ _, h⟩
    | cons y ys =>
      rw [joinComma_cons_cons] at h
      rcases List.mem_append.1 h with h1 | h1
      · exact Or.inl ⟨x, List.mem_cons_self _ _, h1⟩
      rcases List.mem_cons.1 h1 with h2 | h2
      · exact Or.inr h2
      rcases ih h2 with ⟨xs0, hxs0, hc⟩ | h3
      · exact Or.inl ⟨xs0, List.mem_cons_of_mem _ hxs0, hc⟩
      · exact Or.inr h3

theorem serializeRecord_no_crlf {cells : List String}
    (h : ∀ s ∈ cells, noCRLF s) :
    ('\r' ∉ serializeRecord cells) ∧ ('\n' ∉ serializeRecord cells) := by
  rw [serializeRecord]
  by_cases hsp : cells = [""]
  · rw [if_pos hsp]
    constructor <;> decide
  · rw [if_neg hsp]
    constructor
    · intro hmem
      rcases mem_joinComma hmem with ⟨xs, hxs, hc⟩ | hc
      · obtain ⟨s, hs, hmap⟩ := List.mem_map.1 hxs
        rcases mem_serializeField (hmap ▸ hc) with h1 | h1
        · exact ((h s hs) '\r' h1).1 rfl
        · simp at h1
      · simp at hc
    · intro hmem
      rcases mem_joinComma hmem with ⟨xs, hxs, hc⟩ | hc
      · obtain ⟨s, hs, hmap⟩ := List.mem_map.1 hxs
        rcases mem_serializeField (hmap ▸ hc) with h1 | h1
        · exact ((h s hs) '\n' h1).2 rfl
        · simp at h1
      · simp at hc

/-! Newline translation and line splitting. -/

theorem univNL_append_noCR {l : List Char} (rest : List Char)
    (h : ∀ c ∈ l, c ≠ '\r') : univNL (l ++ rest) = l ++ univNL rest := by
  induction l with
  | nil => rfl
  | cons c l ih =>
    have hc : ¬ c = '\r' := h c (List.mem_cons_self _ _)
    rw [List.cons_append]
    rw [univNL.eq_def]
    simp only [if_neg hc]
    rw [ih (fun d hd => h d (List.mem_cons_of_mem _ hd))]
    rfl

theorem univNL_crlf (rest : List Char) :
    univNL ('\r' :: '\n' :: rest) = '\n' :: univNL rest := by
  rw [univNL.eq_def]
  simp

theorem univNL_serializeLines {lines : List (List Char)}
    (h : ∀ l ∈ lines, '\r' ∉ l) :
    univNL (serializeLines lines) =
      lines.foldr (fun l acc => l ++ '\n' :: acc) [] := by
  induction lines with
  | nil => rfl
  | cons l ls ih =>
    have h0 : ∀ c ∈ l, c ≠ '\r' := by
      intro c hc hcr
      exact h l (List.mem_cons_self _ _) (hcr ▸ hc)
    simp only [serializeLines, List.foldr_cons]
    rw [univNL_append_noCR _ h0, univNL_crlf]
    rw [show (List.foldr (fun l acc => l ++ '\r' :: '\n' :: acc) [] ls) =
      serializeLines ls from rfl]
    rw [ih (fun l2 hl2 => h l2 (List.mem_cons_of_mem _ hl2))]

theorem getLinesAux_append {l : List Char} (rest acc : List Char)
    (h : '\n' ∉ l) :
    getLinesAux (l ++ '\n' :: rest) acc = (acc.reverse ++ l) :: getLinesAux rest [] := by
  induction l generalizing acc with
  | nil =>
    rw [List.nil_append]
    rw [getLinesAux]
    simp
  | cons c l ih =>
    have hc : ¬ c = '\n' := fun hcn => h (hcn ▸ List.mem_cons_self _ _)
    rw [List.cons_append]
    rw [getLinesAux]
    rw [if_neg hc]
    rw [ih (c :: acc) (fun hmem => h (List.mem_cons_of_mem _ hmem))]
    simp

theorem getLines_foldr {lines : List (List Char)}
    (h : ∀ l ∈ lines, '\n' ∉ l) :
    getLines (lines.foldr (fun l acc => l ++ '\n' :: acc) []) = lines := by
  induction lines with
  | nil => rfl
  | cons l ls ih =>
    simp only [List.foldr_cons]
    rw [getLines]
    rw [getLinesAux_append _ [] (h l (List.mem_cons_self _ _))]
    rw [show getLinesAux (List.foldr (fun l acc => l ++ '\n' :: acc) [] ls) [] =
      getLines (List.foldr (fun l acc => l ++ '\n' :: acc) [] ls) from rfl]
    rw [ih (fun l2 hl2 => h l2 (List.mem_cons_of_mem _ hl2))]
    simp

/-- Parsing the serialized bytes of a structural file recovers the file,
within the library's format: a non-empty header, no blank data lines, and
CR/LF-free cells. -/
theorem parseCsvFile_serializeFile (f : CsvFile)
    (hh : f.header ≠ [])
    (hr : ∀ rec ∈ f.records, rec ≠ [])
    (hcells : ∀ rec ∈ f.header :: f.records, ∀ s ∈ rec, noCRLF s) :
    parseCsvFile (serializeFile f) = some f := by
  have hrecne : ∀ rec ∈ f.header :: f.records, rec ≠ [] := by
    intro rec hrec
    rcases List.mem_cons.1 hrec with h1 | h1
    · exact h1 ▸ hh
    · exact hr rec h1
  have hnocr : ∀ l ∈ (f.header :: f.records).map serializeRecord, '\r' ∉ l := by
    intro l hl
    obtain ⟨rec, hrec, hmap⟩ := List.mem_map.1 hl
    exact hmap ▸ (serializeRecord_no_crlf (hcells rec hrec)).1
  have hnonl : ∀ l ∈ (f.header :: f.records).map serializeRecord, '\n' ∉ l := by
    intro l hl
    obtain ⟨rec, hrec, hmap⟩ := List.mem_map.1 hl
    exact hmap ▸ (serializeRecord_no_crlf (hcells rec hrec)).2
  have htext : parseCsvText (serializeFile f) = f.header :: f.records := by
    rw [parseCsvText, serializeFile]
    rw [univNL_serializeLines hnocr]
    rw [getLines_foldr hnonl]
    rw [List.map_map]
    have : ∀ rec ∈ f.header :: f.records,
        (parseLine ∘ serializeRecord) rec = rec := by
      intro rec hrec
      exact parseLine_serializeRecord (hrecne rec hrec)
    rw [List.map_congr_left this]
    exact List.map_id _
  rw [parseCsvFile, htext]

/-! Loading the written file back. -/

theorem zip_map_self {α β : Type} (l : List α) (g : α → β) :
    l.zip (l.map g) = l.map (fun x => (x, g x)) := by
  induction l with
  | nil => rfl
  | cons a l ih => simp [ih]

theorem getVal_pairs (l : List String) (g : String → String) (k : String) :
    Row.getVal (l.map (fun x => (x, g x))) k =
      if k ∈ l then some (g k) else none := by
  induction l with
  | nil => rfl
  | cons a l ih =>
    by_cases ha : a = k
    · subst ha
      simp [Row.getVal]
    · have hka : ¬ k = a := fun hh => ha hh.symm
      simp only [List.map_cons, Row.getVal, ha, if_false, ih, List.mem_cons]
      simp [hka]

theorem loadRows_writeCsv (fields : List String) (data : List Row)
    (hf : fields ≠ []) :
    loadRows (writeCsv fields data) =
      data.map (fun r => fields.map (fun fl => (fl, (Row.getVal r fl).getD ""))) := by
  rw [loadRows, writeCsv]
  have hfilter : (data.map (fun r => fields.map
      (fun fl => (Row.getVal r fl).getD ""))).filter (fun cs => !cs.isEmpty) =
      data.map (fun r => fields.map (fun fl => (Row.getVal r fl).getD "")) := by
    rw [List.filter_eq_self]
    intro cs hcs
    obtain ⟨r, _, hmap⟩ := List.mem_map.1 hcs
    subst hmap
    cases hfd : fields with
    | nil => exact absurd hfd hf
    | cons a l => simp [hfd]
  rw [hfilter, List.map_map]
  refine List.map_congr_left ?_
  intro r _
  show zipRow fields (fields.map fun fl => (Row.getVal r fl).getD "") = _
  rw [zipRow, zip_map_self]

theorem forall2_of_map {α β : Type} (g : α → β) (P : α → β → Prop) :
    ∀ l : List α, (∀ x ∈ l, P x (g x)) → List.Forall₂ P l (l.map g) := by
  intro l
  induction l with
  | nil => intro _; exact List.Forall₂.nil
  | cons a l ih =>
    intro h
    exact List.Forall₂.cons (h a (List.mem_cons_self _ _))
      (ih (fun x hx => h x (List.mem_cons_of_mem _ hx)))

/-- C7: for a table whose duplicate-free, non-empty columns and CR/LF-free
cells fit the file format, and whose rows map exactly the column names to
text values, saving then loading reproduces the columns in order and the
rows in order with every value preserved (rows compared as mappings, since
`DictReader` rebuilds each dict in header order), and re-saving the loaded
table reproduces byte-identical file content. -/
theorem C7_round_trip (defaults fields : List String) (data : List Row)
    (hf : fields ≠ [])
    (hnd : fields.Nodup)
    (hfc : ∀ fl ∈ fields, noCRLF fl)
    (hcover : ∀ r ∈ data, ∀ fl ∈ fields, (Row.getVal r fl).isSome)
    (hkeys : ∀ r ∈ data, ∀ p ∈ r, p.1 ∈ fields)
    (hvals : ∀ r ∈ data, ∀ p ∈ r, noCRLF p.2) :
    ∃ data2,
      load_from_bytes defaults (saveBytes fields data) = (fields, data2) ∧
      List.Forall₂ (fun r r2 => ∀ k, Row.getVal r2 k = Row.getVal r k) data data2 ∧
      saveBytes fields data2 = saveBytes fields data := by
  have hparse : parseCsvFile (saveBytes fields data) = some (writeCsv fields data) := by
    refine parseCsvFile_serializeFile (writeCsv fields data) hf ?_ ?_
    · intro rec hrec
      obtain ⟨r, _, hmap⟩ := List.mem_map.1 hrec
      subst hmap
      intro hnil
      exact hf (List.map_eq_nil_iff.1 hnil)
    · intro rec hrec s hs
      rcases List.mem_cons.1 hrec with h1 | h1
      · rw [h1] at hs
        exact hfc s hs
      · obtain ⟨r, hr, hmap⟩ := List.mem_map.1 h1
        subst hmap
        obtain ⟨fl, _, hcell⟩ := List.mem_map.1 hs
        cases hgv : Row.getVal r fl with
        | none =>
          rw [hgv] at hcell
          intro c hc
          rw [← hcell] at hc
          simp [Option.getD] at hc
        | some v =>
          rw [hgv] at hcell
          have hv : (fl, v) ∈ r := Row.getVal_mem hgv
          rw [← hcell]
          exact hvals r hr (fl, v) hv
  have hheader : (writeCsv fields data).header.isEmpty = false := by
    cases hfd : fields with
    | nil => exact absurd hfd hf
    | cons a l => simp [writeCsv, hfd]
  have hpoint : ∀ r ∈ data, ∀ k,
      Row.getVal (fields.map fun fl => (fl, (Row.getVal r fl).getD "")) k =
        Row.getVal r k := by
    intro r hr k
    rw [getVal_pairs]
    by_cases hk : k ∈ fields
    · rw [if_pos hk]
      obtain ⟨v, hv⟩ := Option.isSome_iff_exists.1 (hcover r hr k hk)
      rw [hv]
      rfl
    · rw [if_neg hk]
      exact (Row.getVal_none_of_keys (hkeys r hr) hk).symm
  refine ⟨loadRows (writeCsv fields data), ?_, ?_, ?_⟩
  · rw [load_from_bytes, hparse]
    rw [load_csv]
    rw [hheader]
    rfl
  · rw [loadRows_writeCsv fields data hf]
    exact forall2_of_map _ _ data (fun r hr k => hpoint r hr k)
  · have hrec : (loadRows (writeCsv fields data)).map
        (fun r => fields.map fun fl => (Row.getVal r fl).getD "") =
        data.map (fun r => fields.map fun fl => (Row.getVal r fl).getD "") := by
      rw [loadRows_writeCsv fields data hf, List.map_map]
      refine List.map_congr_left ?_
      intro r hr
      show fields.map (fun fl => (Row.getVal
        (fields.map fun fl2 => (fl2, (Row.getVal r fl2).getD "")) fl).getD "") = _
      refine List.map_congr_left ?_
      intro fl _
      rw [hpoint r hr fl]
    have hwrite : writeCsv fields (loadRows (writeCsv fields data)) =
        writeCsv fields data := congrArg (CsvFile.mk fields) hrec
    rw [saveBytes, saveBytes, hwrite]

/-- Witness for C7 at a concrete two-column table. -/
theorem C7_round_trip_witness :
    ((["id", "name"] : List String) ≠ []) ∧
    (["id", "name"] : List String).Nodup ∧
    (∀ fl ∈ ["id", "name"], noCRLF fl) ∧
    (∀ r ∈ [[("id", "1"), ("name", "A")]], ∀ p ∈ r, noCRLF p.2) ∧
    ∃ data2,
      load_from_bytes ["x"] (saveBytes ["id", "name"] [[("id", "1"), ("name", "A")]]) =
        (["id", "name"], data2) ∧
      List.Forall₂ (fun r r2 => ∀ k, Row.getVal r2 k = Row.getVal r k)
        [[("id", "1"), ("name", "A")]] data2 ∧
      saveBytes ["id", "name"] data2 =
        saveBytes ["id", "name"] [[("id", "1"), ("name", "A")]] := by
  refine ⟨by decide, by decide, by decide, by decide, ?_⟩
  exact C7_round_trip ["x"] ["id", "name"] [[("id", "1"), ("name", "A")]]
    (by decide) (by decide) (by decide) (by decide) (by decide) (by decide)

end Cfu
